import Mathlib

/-!
# Verification of the mdtagger tag-resolution engine

Shallow embedding of `src/main.rs` of hiroki596/mdtagger: the tag resolver
(`resolve_tag`), the vocabulary store loader (`load_config`) and the
metadata-block merger (`update_markdown`), together with proofs of the
specified properties.

Strings are modelled as lists of characters (`Str`); Rust's `String`
ordering (byte-wise on UTF-8) coincides with lexicographic codepoint order,
which is what `strLe`/`strLt` implement.  The external YAML library
(`serde_yaml`) is modelled by an inductive value type `YValue`; the parser
and serializer are parameters of the functions that use them, since the
code only relies on their results.  The interactive prompt library
(`dialoguer`) is modelled by passing the user's answers (`choice`,
`confirmNew`) as arguments.
-/

abbrev Str := List Char

/-- Lexicographic (codepoint) non-strict order on strings, matching Rust's
`Ord for String` (byte order on UTF-8 equals codepoint order). -/
def strLe : Str → Str → Bool
  | [], _ => true
  | _ :: _, [] => false
  | a :: as, b :: bs => if a < b then true else if b < a then false else strLe as bs

/-- Lexicographic (codepoint) strict order on strings. -/
def strLt : Str → Str → Bool
  | [], [] => false
  | [], _ :: _ => true
  | _ :: _, [] => false
  | a :: as, b :: bs => if a < b then true else if b < a then false else strLt as bs

/-- The Levenshtein edit distance between two character strings: the minimum
number of single-character insert/delete/substitute operations, each of
cost 1.  Models `strsim::levenshtein` from the source, via Mathlib's
`levenshtein` with the unit cost structure. -/
def levenshteinDist (a b : Str) : Nat :=
  levenshtein Levenshtein.defaultCost a b

/-- Model of `TagEntry` from the source: a canonical name and its aliases. -/
structure TagEntry where
  name : Str
  aliases : List Str
deriving DecidableEq, Repr

/-- Model of `TagConfig` from the source: the vocabulary, an ordered list of entries. -/
structure TagConfig where
  tags : List TagEntry
deriving DecidableEq, Repr

/-- The exact-match scan of `resolve_tag` (stage A): the first entry whose
canonical name or one of whose aliases equals the input. -/
def exactMatch (input : Str) : List TagEntry → Option TagEntry
  | [] => none
  | e :: t => if e.name = input ∨ input ∈ e.aliases then some e else exactMatch input t

/-- The fuzzy candidate list of `resolve_tag` (stage B): indices into the
vocabulary paired with the edit distance of the entry's canonical name to
the input, filtered by the threshold 3, in vocabulary order. -/
def suggestionsFor (cfg : TagConfig) (input : Str) : List (Nat × Nat) :=
  ((cfg.tags.enum).map (fun p => (p.1, levenshteinDist p.2.name input))).filter
    (fun p => p.2 ≤ 3)

/-- Model of `resolve_tag` from the source.  The interactive `Select` and `Confirm`
prompts of `dialoguer` are modelled by the arguments `choice` (the index the
user picks in the menu, when one is shown) and `confirmNew` (the answer to
the new-tag confirmation, when it is asked).  Returns the `(final_tag,
vocabulary_changed)` pair together with the vocabulary after the call. -/
def resolve_tag (input : Str) (cfg : TagConfig) (choice : Nat) (confirmNew : Bool) :
    (Str × Bool) × TagConfig :=
  match exactMatch input cfg.tags with
  | some e => ((e.name, false), cfg)
  | none =>
    let suggestions := suggestionsFor cfg input
    if suggestions.isEmpty then
      if confirmNew then ((input, true), ⟨cfg.tags ++ [⟨input, []⟩]⟩)
      else ((input, false), cfg)
    else
      let bestIdx := (suggestions.headD (0, 0)).1
      let best := cfg.tags.getD bestIdx ⟨[], []⟩
      if choice < suggestions.length then
        (((cfg.tags.getD (suggestions.getD choice (0, 0)).1 ⟨[], []⟩).name, false), cfg)
      else if choice = suggestions.length then
        ((best.name, true), ⟨cfg.tags.set bestIdx ⟨best.name, best.aliases ++ [input]⟩⟩)
      else
        if confirmNew then ((input, true), ⟨cfg.tags ++ [⟨input, []⟩]⟩)
        else ((input, false), cfg)

/-- Model of `load_config` from the source.  The file system is modelled by `file`
(`none` when the record does not exist, `some content` otherwise) and the
external JSON deserializer `serde_json::from_str` by the parameter `parse`
(`none` when parsing fails).  A missing record yields the default (empty)
vocabulary and a parse failure is absorbed by `unwrap_or_default`. -/
def load_config (parse : Str → Option TagConfig) (file : Option Str) : TagConfig :=
  match file with
  | none => ⟨[]⟩
  | some content => (parse content).getD ⟨[]⟩

/-- A YAML value, modelling `serde_yaml::Value`.  Mappings are ordered
key-value lists (serde_yaml's `Mapping` preserves insertion order). -/
inductive YValue where
  | null : YValue
  | bool (b : Bool) : YValue
  | num (n : Int) : YValue
  | str (s : Str) : YValue
  | seq (l : List YValue) : YValue
  | map (m : List (YValue × YValue)) : YValue

/-- Structural equality of a YAML value against the string value `s`:
`v == Value::String(s)` in Rust (`Value`'s `PartialEq` is structural).  The
source only ever compares mapping keys against `Value::String("tags")`. -/
def yEqStr (v : YValue) (s : Str) : Bool :=
  match v with
  | .str t => t = s
  | _ => false

/-- Model of `Mapping::contains_key` with a string key. -/
def containsKey (m : List (YValue × YValue)) (k : Str) : Bool :=
  m.any (fun p => yEqStr p.1 k)

/-- Model of `Mapping::get` / `get_mut` (read side) with a string key: the value at
the first matching key. -/
def getVal (m : List (YValue × YValue)) (k : Str) : Option YValue :=
  match m.find? (fun p => yEqStr p.1 k) with
  | some p => some p.2
  | none => none

/-- Writing through `get_mut`: replace the value at the first matching key. -/
def setVal (m : List (YValue × YValue)) (k : Str) (v : YValue) :
    List (YValue × YValue) :=
  match m with
  | [] => []
  | p :: t => if yEqStr p.1 k then (p.1, v) :: t else p :: setVal t k v

/-- Rust's stable `Vec::sort` on `String`s, modelled by insertion sort under
the lexicographic codepoint order. -/
def insertStr (a : Str) : List Str → List Str
  | [] => [a]
  | b :: t => if strLe a b then a :: b :: t else b :: insertStr a t

/-- Sort a list of strings ascending (models `current_strings.sort()`). -/
def sortStrs : List Str → List Str
  | [] => []
  | a :: t => insertStr a (sortStrs t)

/-- Helper for `dedupConsec`: drop elements equal to the element kept last
(`a`), keeping and switching to each new distinct element. -/
def dedupFrom (a : Str) : List Str → List Str
  | [] => []
  | b :: t => if a = b then dedupFrom a t else b :: dedupFrom b t

/-- Rust's `Vec::dedup`: remove consecutive duplicate elements. -/
def dedupConsec : List Str → List Str
  | [] => []
  | a :: t => a :: dedupFrom a t

/-- The `tags` key of the metadata mapping. -/
def tagsKey : Str := "tags".data

/-- Lines 195–197 of the source: if the mapping has no `tags` key, insert
one bound to an empty list (serde_yaml's `Mapping::insert` appends a fresh
key at the end). -/
def merge_m1 (m : List (YValue × YValue)) : List (YValue × YValue) :=
  if containsKey m tagsKey then m else m ++ [(.str tagsKey, .seq [])]

/-- Lines 201–204 of the source: promote a scalar string `tags` value to a
one-element list; leave any other value unchanged. -/
def promote_tags (v : YValue) : YValue :=
  match v with
  | .str s => .seq [.str s]
  | v => v

/-- Model of `v.as_str()` on a YAML value: `some` exactly for strings. -/
def yAsStr (v : YValue) : Option Str :=
  match v with
  | .str s => some s
  | _ => none

/-- Lines 206–218 of the source: when the `tags` value is a list, keep its
string entries, append the new tags, sort and deduplicate; the
`if let Some(seq)` block leaves any other value untouched. -/
def union_tags (v : YValue) (new_tags : List Str) : YValue :=
  match v with
  | .seq l => .seq ((dedupConsec (sortStrs (l.filterMap yAsStr ++ new_tags))).map .str)
  | v => v

/-- Lines 192–218 of the source: given the parsed front-matter value and the
body, require a mapping (`as_mapping_mut`, erring with "Invalid Front
Matter" otherwise), default the `tags` field to an empty list, promote a
scalar string to a one-element list, and when the field is a list, union
its string entries with the new tags, sort and deduplicate.  A `tags` value
of any other shape is left untouched by the `if let Some(seq)` block. -/
def merge_into (yaml_val : YValue) (body : Str) (new_tags : List Str) :
    Except String (YValue × Str) :=
  match yaml_val with
  | .map m =>
    let m1 := merge_m1 m
    .ok (.map (setVal m1 tagsKey
      (union_tags (promote_tags ((getVal m1 tagsKey).getD .null)) new_tags)), body)
  | _ => .error "Invalid Front Matter"

/-- Check that `pat` is a prefix of `s` (decidable, used by the regex
model). -/
def hasPfx : Str → Str → Bool
  | [], _ => true
  | _ :: _, [] => false
  | p :: ps, c :: cs => p = c && hasPfx ps cs

/-- Find the first (lazy) occurrence of the closing delimiter `"\n---\n"`:
split `s` into `a ++ "\n---\n" ++ b` with `a` shortest. -/
def findDelim : Str → Option (Str × Str)
  | [] => none
  | c :: cs =>
    if hasPfx "\n---\n".data (c :: cs) then some ([], (c :: cs).drop 5)
    else match findDelim cs with
      | some (a, b) => some (c :: a, b)
      | none => none

/-- The front-matter regex `(?s)^---\n(.*?)\n---\n(.*)` of the source: the
document must start with `"---\n"`, and the first following `"\n---\n"`
separates the block content (first capture) from the body (second
capture). -/
def splitFrontMatter (s : Str) : Option (Str × Str) :=
  if hasPfx "---\n".data s then findDelim (s.drop 4) else none

/-- Lines 178–218 of the source (`update_markdown` up to re-serialization):
split off the front matter (the whole document is the body when the regex
does not match), parse it with the external YAML parser `parse` (a parse
failure falls back to an empty mapping; a missing block also yields an
empty mapping), and merge the new tags.  Returns the updated YAML value and
the body. -/
def update_markdown (parse : Str → Option YValue) (content : Str)
    (new_tags : List Str) : Except String (YValue × Str) :=
  let p : YValue × Str := match splitFrontMatter content with
    | some (yaml_str, body_str) => ((parse yaml_str).getD (.map []), body_str)
    | none => (.map [], content)
  merge_into p.1 p.2 new_tags

/-- Lines 220–221 of the source: re-serialize with the external serializer
and reassemble `---\n{yaml}---\n{body}`. -/
def render (ser : YValue → Str) (v : YValue) (body : Str) : Str :=
  "---\n".data ++ ser v ++ "---\n".data ++ body

/-- Specification-side helper: the strings contributed by an existing
`tags` field — nothing when absent, the string itself when scalar, the
string entries when a list. -/
def existingStrings (tv : Option YValue) : List Str :=
  match tv with
  | some (.str s) => [s]
  | some (.seq l) => l.filterMap yAsStr
  | _ => []

/-- Specification-side helper: the `tags` field is absent, a scalar string,
or a list. -/
def tagsShapeOk (tv : Option YValue) : Prop :=
  match tv with
  | none => True
  | some (.str _) => True
  | some (.seq _) => True
  | some _ => False

/-! ## Lemmas about the string order -/

theorem strLe_cons (x y : Char) (xs ys : Str) : strLe (x :: xs) (y :: ys) =
    if x < y then true else if y < x then false else strLe xs ys := rfl

theorem strLt_cons (x y : Char) (xs ys : Str) : strLt (x :: xs) (y :: ys) =
    if x < y then true else if y < x then false else strLt xs ys := rfl

theorem strLe_total : ∀ a b : Str, strLe a b = true ∨ strLe b a = true
  | [], _ => Or.inl rfl
  | _ :: _, [] => Or.inr rfl
  | x :: xs, y :: ys => by
    rcases lt_trichotomy x y with h | h | h
    · left; rw [strLe_cons, if_pos h]
    · subst h
      rw [strLe_cons, if_neg (lt_irrefl x), if_neg (lt_irrefl x),
        strLe_cons, if_neg (lt_irrefl x), if_neg (lt_irrefl x)]
      exact strLe_total xs ys
    · right; rw [strLe_cons, if_pos h]

theorem strLe_trans : ∀ a b c : Str, strLe a b = true → strLe b c = true →
    strLe a c = true
  | [], _, _, _, _ => rfl
  | _ :: _, [], _, h, _ => by simp [strLe] at h
  | _ :: _, _ :: _, [], _, h => by simp [strLe] at h
  | x :: xs, y :: ys, z :: zs, h1, h2 => by
    rw [strLe_cons] at h1 h2 ⊢
    rcases lt_trichotomy x y with hxy | hxy | hxy
    · rcases lt_trichotomy y z with hyz | hyz | hyz
      · rw [if_pos (lt_trans hxy hyz)]
      · subst hyz; rw [if_pos hxy]
      · rw [if_neg (lt_asymm hyz), if_pos hyz] at h2; exact absurd h2 (by simp)
    · subst hxy
      rcases lt_trichotomy x z with hxz | hxz | hxz
      · rw [if_pos hxz]
      · subst hxz
        rw [if_neg (lt_irrefl x), if_neg (lt_irrefl x)] at h1 h2 ⊢
        exact strLe_trans xs ys zs h1 h2
      · rw [if_neg (lt_asymm hxz), if_pos hxz] at h2; exact absurd h2 (by simp)
    · rw [if_neg (lt_asymm hxy), if_pos hxy] at h1; exact absurd h1 (by simp)

theorem strLe_antisymm : ∀ a b : Str, strLe a b = true → strLe b a = true → a = b
  | [], [], _, _ => rfl
  | [], _ :: _, _, h => by simp [strLe] at h
  | _ :: _, [], h, _ => by simp [strLe] at h
  | x :: xs, y :: ys, h1, h2 => by
    rcases lt_trichotomy x y with hxy | hxy | hxy
    · rw [strLe_cons, if_neg (lt_asymm hxy), if_pos hxy] at h2; exact absurd h2 (by simp)
    · subst hxy
      rw [strLe_cons, if_neg (lt_irrefl x), if_neg (lt_irrefl x)] at h1 h2
      rw [strLe_antisymm xs ys h1 h2]
    · rw [strLe_cons, if_neg (lt_asymm hxy), if_pos hxy] at h1; exact absurd h1 (by simp)

theorem strLt_of_strLe_of_ne : ∀ a b : Str, strLe a b = true → a ≠ b →
    strLt a b = true
  | [], [], _, hne => absurd rfl hne
  | [], _ :: _, _, _ => rfl
  | _ :: _, [], h, _ => by simp [strLe] at h
  | x :: xs, y :: ys, h, hne => by
    rw [strLe_cons] at h
    rw [strLt_cons]
    rcases lt_trichotomy x y with hxy | hxy | hxy
    · rw [if_pos hxy]
    · subst hxy
      rw [if_neg (lt_irrefl x), if_neg (lt_irrefl x)] at h ⊢
      exact strLt_of_strLe_of_ne xs ys h (fun hh => hne (by rw [hh]))
    · rw [if_neg (lt_asymm hxy), if_pos hxy] at h; exact absurd h (by simp)

theorem strLe_of_strLt : ∀ a b : Str, strLt a b = true → strLe a b = true
  | [], _, _ => rfl
  | _ :: _, [], h => by simp [strLt] at h
  | x :: xs, y :: ys, h => by
    rw [strLt_cons] at h
    rw [strLe_cons]
    rcases lt_trichotomy x y with hxy | hxy | hxy
    · rw [if_pos hxy]
    · subst hxy
      rw [if_neg (lt_irrefl x), if_neg (lt_irrefl x)] at h ⊢
      exact strLe_of_strLt xs ys h
    · rw [if_neg (lt_asymm hxy), if_pos hxy] at h; exact absurd h (by simp)

theorem strLt_ne : ∀ a b : Str, strLt a b = true → a ≠ b
  | [], [], h, _ => by simp [strLt] at h
  | [], _ :: _, _, hh => by simp at hh
  | _ :: _, [], h, _ => by simp [strLt] at h
  | x :: xs, y :: ys, h, hh => by
    injection hh with h1 h2
    subst h1; subst h2
    rw [strLt_cons, if_neg (lt_irrefl x), if_neg (lt_irrefl x)] at h
    exact strLt_ne xs xs h rfl

theorem strLt_trans (a b c : Str) (h1 : strLt a b = true) (h2 : strLt b c = true) :
    strLt a c = true := by
  have hab := strLe_of_strLt a b h1
  have hbc := strLe_of_strLt b c h2
  refine strLt_of_strLe_of_ne a c (strLe_trans a b c hab hbc) (fun he => ?_)
  subst he
  exact strLt_ne a b h1 (strLe_antisymm a b hab hbc)

/-! ## Lemmas about sorting and deduplication -/

theorem mem_insertStr (x a : Str) : ∀ l : List Str,
    (x ∈ insertStr a l ↔ x = a ∨ x ∈ l)
  | [] => by simp [insertStr]
  | b :: t => by
    cases hab : strLe a b with
    | true => simp [insertStr, hab]
    | false =>
      simp only [insertStr, hab, Bool.false_eq_true, if_false, List.mem_cons]
      rw [mem_insertStr x a t]
      tauto

theorem mem_sortStrs (x : Str) : ∀ l : List Str, (x ∈ sortStrs l ↔ x ∈ l)
  | [] => Iff.rfl
  | a :: t => by
    simp only [sortStrs, mem_insertStr, List.mem_cons]
    rw [mem_sortStrs x t]

theorem pairwise_insertStr (a : Str) : ∀ l : List Str,
    l.Pairwise (fun u v => strLe u v = true) →
    (insertStr a l).Pairwise (fun u v => strLe u v = true)
  | [], _ => by simp [insertStr]
  | b :: t, h => by
    rw [List.pairwise_cons] at h
    cases hab : strLe a b with
    | true =>
      simp only [insertStr, hab, if_true]
      refine List.pairwise_cons.mpr ⟨?_, List.pairwise_cons.mpr h⟩
      intro x hx
      rcases List.mem_cons.mp hx with rfl | hxt
      · exact hab
      · exact strLe_trans a b x hab (h.1 x hxt)
    | false =>
      simp only [insertStr, hab, Bool.false_eq_true, if_false]
      refine List.pairwise_cons.mpr ⟨?_, pairwise_insertStr a t h.2⟩
      intro x hx
      rcases (mem_insertStr x a t).mp hx with rfl | hxt
      · rcases strLe_total x b with hh | hh
        · rw [hab] at hh; exact absurd hh (by simp)
        · exact hh
      · exact h.1 x hxt

theorem pairwise_sortStrs : ∀ l : List Str,
    (sortStrs l).Pairwise (fun u v => strLe u v = true)
  | [] => List.Pairwise.nil
  | a :: t => pairwise_insertStr a (sortStrs t) (pairwise_sortStrs t)

theorem mem_dedupFrom_subset (x a : Str) : ∀ l : List Str,
    x ∈ dedupFrom a l → x ∈ l
  | [], h => by simp [dedupFrom] at h
  | b :: t, h => by
    by_cases hab : a = b
    · simp only [dedupFrom, if_pos hab] at h
      exact List.mem_cons_of_mem b (mem_dedupFrom_subset x a t h)
    · simp only [dedupFrom, if_neg hab, List.mem_cons] at h
      rcases h with rfl | h
      · exact List.mem_cons_self x t
      · exact List.mem_cons_of_mem b (mem_dedupFrom_subset x b t h)

theorem mem_dedupFrom_of_mem (x a : Str) : ∀ l : List Str,
    x ∈ l → x = a ∨ x ∈ dedupFrom a l
  | [], h => by simp at h
  | b :: t, h => by
    by_cases hab : a = b
    · subst hab
      rcases List.mem_cons.mp h with rfl | h
      · exact Or.inl rfl
      · simp only [dedupFrom, if_pos rfl]
        exact mem_dedupFrom_of_mem x a t h
    · simp only [dedupFrom, if_neg hab, List.mem_cons]
      rcases List.mem_cons.mp h with rfl | h
      · exact Or.inr (Or.inl rfl)
      · rcases mem_dedupFrom_of_mem x b t h with rfl | hh
        · exact Or.inr (Or.inl rfl)
        · exact Or.inr (Or.inr hh)

theorem mem_dedupConsec (x : Str) : ∀ l : List Str, (x ∈ dedupConsec l ↔ x ∈ l)
  | [] => Iff.rfl
  | a :: t => by
    simp only [dedupConsec, List.mem_cons]
    constructor
    · rintro (rfl | h)
      · exact Or.inl rfl
      · exact Or.inr (mem_dedupFrom_subset x a t h)
    · rintro (rfl | h)
      · exact Or.inl rfl
      · rcases mem_dedupFrom_of_mem x a t h with rfl | hh
        · exact Or.inl rfl
        · exact Or.inr hh

theorem chain_dedupFrom (a : Str) : ∀ l : List Str,
    List.Chain' (fun u v => strLe u v = true) (a :: l) →
    List.Chain' (fun u v => strLt u v = true) (a :: dedupFrom a l)
  | [], _ => List.chain'_singleton a
  | b :: t, h => by
    rw [List.chain'_cons] at h
    by_cases hab : a = b
    · rw [dedupFrom, if_pos hab]
      refine chain_dedupFrom a t ?_
      cases t with
      | nil => exact List.chain'_singleton a
      | cons c u =>
        rw [List.chain'_cons] at h ⊢
        exact ⟨hab ▸ h.2.1, h.2.2⟩
    · rw [dedupFrom, if_neg hab]
      rw [List.chain'_cons]
      exact ⟨strLt_of_strLe_of_ne a b h.1 hab, chain_dedupFrom b t h.2⟩

instance : IsTrans Str (fun u v => strLt u v = true) :=
  ⟨fun a b c => strLt_trans a b c⟩

/-- The combination `sort(); dedup()` of the source yields a strictly
ascending list with the same members as the original. -/
theorem sortDedup_spec (l : List Str) :
    (dedupConsec (sortStrs l)).Pairwise (fun u v => strLt u v = true) ∧
    ∀ x, x ∈ dedupConsec (sortStrs l) ↔ x ∈ l := by
  constructor
  · rw [← List.chain'_iff_pairwise]
    cases hs : sortStrs l with
    | nil => exact List.chain'_nil
    | cons a t =>
      have hp := pairwise_sortStrs l
      rw [hs] at hp
      exact chain_dedupFrom a t (List.Pairwise.chain' hp)
  · intro x
    rw [mem_dedupConsec, mem_sortStrs]

/-! ## Lemmas about mapping operations -/

theorem setVal_keys_values (m : List (YValue × YValue)) (k : Str) (v : YValue) :
    ∀ k', k' ≠ k → getVal (setVal m k v) k' = getVal m k' := by
  induction m with
  | nil => intro k' _; rfl
  | cons p t ih =>
    intro k' hk
    cases hpk : yEqStr p.1 k with
    | true =>
      rw [setVal, if_pos hpk]
      have hp1 : yEqStr p.1 k' = false := by
        cases p1 : p.1 <;> rw [p1] at hpk <;> simp [yEqStr] at hpk ⊢
        exact fun hh => hk (hh.symm.trans hpk)
      simp only [getVal, List.find?_cons, hp1]
    | false =>
      rw [setVal, if_neg (by simp [hpk])]
      cases hp1 : yEqStr p.1 k' with
      | true => simp only [getVal, List.find?_cons, hp1]
      | false =>
        simp only [getVal, List.find?_cons, hp1]
        exact ih k' hk

theorem getVal_setVal_self (k : Str) (v : YValue) :
    ∀ m : List (YValue × YValue), containsKey m k = true →
    getVal (setVal m k v) k = some v
  | [], h => by simp [containsKey] at h
  | p :: t, h => by
    cases hpk : yEqStr p.1 k with
    | true =>
      rw [setVal, if_pos hpk]
      have : yEqStr (p.1) k = true := hpk
      simp only [getVal, List.find?_cons, hpk]
    | false =>
      rw [setVal, if_neg (by simp [hpk])]
      have hc : containsKey t k = true := by
        simp only [containsKey, List.any_cons, hpk, Bool.false_or] at h
        exact h
      simp only [getVal, List.find?_cons, hpk]
      exact getVal_setVal_self k v t hc

theorem getVal_append_one (k : Str) (v : YValue) :
    ∀ m : List (YValue × YValue), containsKey m k = false →
    getVal (m ++ [(.str k, v)]) k = some v
  | [], _ => by simp [getVal, List.find?, yEqStr]
  | p :: t, h => by
    simp only [containsKey, List.any_cons, Bool.or_eq_false_iff] at h
    simp only [List.cons_append, getVal, List.find?_cons, h.1]
    exact getVal_append_one k v t (by simp [containsKey, h.2])

theorem containsKey_append_one (k : Str) (v : YValue) (m : List (YValue × YValue)) :
    containsKey (m ++ [(.str k, v)]) k = true := by
  simp [containsKey, yEqStr]

theorem getVal_append_ne (k k' : Str) (v : YValue) (hk : k' ≠ k) :
    ∀ m : List (YValue × YValue), getVal (m ++ [(.str k, v)]) k' = getVal m k'
  | [] => by
    simp only [List.nil_append, getVal, List.find?_cons, List.find?_nil]
    have : yEqStr (.str k) k' = false := by
      simp only [yEqStr, decide_eq_false_iff_not]
      exact fun hh => hk (hh.symm)
    rw [this]
  | p :: t => by
    cases hp1 : yEqStr p.1 k' with
    | true => simp only [List.cons_append, getVal, List.find?_cons, hp1]
    | false =>
      simp only [List.cons_append, getVal, List.find?_cons, hp1]
      exact getVal_append_ne k k' v hk t

theorem filter_setVal (k : Str) (v : YValue) :
    ∀ m : List (YValue × YValue),
    (setVal m k v).filter (fun p => !yEqStr p.1 k) = m.filter (fun p => !yEqStr p.1 k)
  | [] => rfl
  | p :: t => by
    cases hpk : yEqStr p.1 k with
    | true =>
      rw [setVal, if_pos hpk]
      rw [List.filter_cons, List.filter_cons]
      simp [hpk]
    | false =>
      rw [setVal, if_neg (by simp [hpk])]
      rw [List.filter_cons, List.filter_cons]
      simp only [hpk, Bool.not_false, if_pos trivial]
      rw [filter_setVal k v t]

theorem filter_append_one (k : Str) (v : YValue) (m : List (YValue × YValue)) :
    List.filter (fun p => !yEqStr p.1 k) (m ++ [(YValue.str k, v)]) =
    m.filter (fun p => !yEqStr p.1 k) := by
  rw [List.filter_append]
  simp [yEqStr]

/-! ## Lemmas about the exact-match stage -/

theorem exactMatch_eq_none (input : Str) : ∀ l : List TagEntry,
    exactMatch input l = none ↔ ∀ e ∈ l, ¬(e.name = input ∨ input ∈ e.aliases)
  | [] => by simp [exactMatch]
  | e :: t => by
    by_cases he : e.name = input ∨ input ∈ e.aliases
    · simp only [exactMatch, if_pos he]
      simp only [List.mem_cons]
      constructor
      · intro h; exact absurd h (by simp)
      · intro h; exact absurd he (h e (Or.inl rfl))
    · simp only [exactMatch, if_neg he, List.mem_cons]
      rw [exactMatch_eq_none input t]
      constructor
      · rintro h x (rfl | hx)
        · exact he
        · exact h x hx
      · intro h x hx; exact h x (Or.inr hx)

theorem exactMatch_eq_some (input : Str) : ∀ (l : List TagEntry) (e : TagEntry),
    exactMatch input l = some e → e ∈ l ∧ (e.name = input ∨ input ∈ e.aliases)
  | [], e, h => by simp [exactMatch] at h
  | a :: t, e, h => by
    by_cases ha : a.name = input ∨ input ∈ a.aliases
    · rw [exactMatch, if_pos ha] at h
      cases h
      exact ⟨List.mem_cons_self a t, ha⟩
    · rw [exactMatch, if_neg ha] at h
      have := exactMatch_eq_some input t e h
      exact ⟨List.mem_cons_of_mem a this.1, this.2⟩

theorem exactMatch_isSome_of_mem (input : Str) {l : List TagEntry} {e : TagEntry}
    (he : e ∈ l) (hm : e.name = input ∨ input ∈ e.aliases) :
    ∃ e', exactMatch input l = some e' := by
  cases h : exactMatch input l with
  | some e' => exact ⟨e', rfl⟩
  | none => exact absurd hm ((exactMatch_eq_none input l).mp h e he)

/-- After appending a matching alias to the entry at index `i` of a
vocabulary with no exact match, the exact-match scan finds exactly the
updated entry. -/
theorem exactMatch_set (input : Str) : ∀ (l : List TagEntry) (i : Nat) (e : TagEntry),
    exactMatch input l = none → i < l.length →
    (e.name = input ∨ input ∈ e.aliases) →
    exactMatch input (l.set i e) = some e
  | [], i, e, _, hi, _ => by simp at hi
  | a :: t, 0, e, _, _, hm => by
    rw [List.set_cons_zero, exactMatch, if_pos hm]
  | a :: t, i + 1, e, hn, hi, hm => by
    rw [List.set_cons_succ]
    have ha : ¬(a.name = input ∨ input ∈ a.aliases) :=
      (exactMatch_eq_none input (a :: t)).mp hn a (List.mem_cons_self a t)
    rw [exactMatch, if_neg ha]
    rw [exactMatch, if_neg ha] at hn
    exact exactMatch_set input t i e hn (by simpa using hi) hm

/-! ## Lemmas about the fuzzy-candidate stage -/

theorem mem_suggestionsFor (cfg : TagConfig) (input : Str) (i d : Nat) :
    (i, d) ∈ suggestionsFor cfg input ↔
    ∃ e, cfg.tags.get? i = some e ∧ levenshteinDist e.name input = d ∧ d ≤ 3 := by
  simp only [suggestionsFor, List.mem_filter, List.mem_map, List.get?_eq_getElem?]
  constructor
  · rintro ⟨⟨⟨j, e⟩, hp, hfp⟩, hd⟩
    injection hfp with h1 h2
    subst h1; subst h2
    exact ⟨e, List.mk_mem_enum_iff_getElem?.mp hp, rfl, by simpa using hd⟩
  · rintro ⟨e, hget, hd, hle⟩
    exact ⟨⟨(i, e), List.mk_mem_enum_iff_getElem?.mpr hget, by rw [← hd]⟩,
      by simpa [← hd] using hle⟩

theorem pairwise_fst_lt_enumFrom {α : Type} (n : Nat) : ∀ l : List α,
    (List.enumFrom n l).Pairwise (fun p q => p.1 < q.1)
  | [] => List.Pairwise.nil
  | a :: t => by
    rw [List.enumFrom_cons]
    refine List.pairwise_cons.mpr ⟨?_, pairwise_fst_lt_enumFrom (n + 1) t⟩
    rintro ⟨i, x⟩ hq
    exact Nat.lt_of_lt_of_le (Nat.lt_succ_self n) (List.le_fst_of_mem_enumFrom hq)

/-- The candidate list preserves vocabulary order: its indices are strictly
increasing (no re-sorting by distance). -/
theorem pairwise_fst_lt_suggestionsFor (cfg : TagConfig) (input : Str) :
    (suggestionsFor cfg input).Pairwise (fun p q => p.1 < q.1) := by
  unfold suggestionsFor
  refine List.Pairwise.filter _ ?_
  rw [List.pairwise_map]
  exact pairwise_fst_lt_enumFrom 0 cfg.tags

/-- The first candidate has the smallest vocabulary index. -/
theorem headD_min_suggestionsFor (cfg : TagConfig) (input : Str) :
    ∀ q ∈ suggestionsFor cfg input,
    ((suggestionsFor cfg input).headD (0, 0)).1 ≤ q.1 := by
  cases hs : suggestionsFor cfg input with
  | nil => intro q hq; simp at hq
  | cons p t =>
    intro q hq
    have hp := pairwise_fst_lt_suggestionsFor cfg input
    rw [hs] at hp
    rcases List.mem_cons.mp hq with rfl | hq2
    · simp
    · exact le_of_lt ((List.pairwise_cons.mp hp).1 q hq2)

/-- Aliases play no role in the fuzzy stage: erasing every alias list leaves
the candidate set unchanged. -/
theorem suggestionsFor_ignores_aliases (cfg : TagConfig) (input : Str) :
    suggestionsFor ⟨cfg.tags.map (fun e => ⟨e.name, []⟩)⟩ input =
    suggestionsFor cfg input := by
  unfold suggestionsFor
  rw [List.enum_map, List.map_map]
  rfl

/-! ## Lemmas about the front-matter split -/

theorem hasPfx_eq : ∀ p s : Str, hasPfx p s = true → s = p ++ s.drop p.length
  | [], _, _ => rfl
  | c :: p, [], h => by simp [hasPfx] at h
  | c :: p, d :: s, h => by
    simp only [hasPfx, Bool.and_eq_true, decide_eq_true_eq] at h
    obtain ⟨rfl, h2⟩ := h
    simpa [List.length_cons, List.drop_succ_cons, List.cons_append] using
      congrArg (List.cons c) (hasPfx_eq p s h2)

theorem hasPfx_append : ∀ p r : Str, hasPfx p (p ++ r) = true
  | [], _ => rfl
  | c :: p, r => by
    simp only [List.cons_append, hasPfx, Bool.and_eq_true, decide_eq_true_eq]
    exact ⟨trivial, hasPfx_append p r⟩


theorem findDelim_sound : ∀ s a b : Str, findDelim s = some (a, b) →
    s = a ++ "\n---\n".data ++ b
  | [], a, b, h => by simp [findDelim] at h
  | c :: cs, a, b, h => by
    rw [findDelim] at h
    by_cases hp : hasPfx "\n---\n".data (c :: cs) = true
    · rw [if_pos hp] at h
      injection h with h
      injection h with h1 h2
      subst h1
      have := hasPfx_eq "\n---\n".data (c :: cs) hp
      subst h2
      simpa using this
    · rw [if_neg hp] at h
      cases hf : findDelim cs with
      | none => rw [hf] at h; cases h
      | some p =>
        obtain ⟨a2, b2⟩ := p
        rw [hf] at h
        injection h with h
        injection h with h1 h2
        subst h2
        subst h1
        have hrec := findDelim_sound cs a2 b2 hf
        rw [List.cons_append, List.cons_append, ← hrec]

theorem findDelim_complete : ∀ a b : Str,
    (findDelim (a ++ "\n---\n".data ++ b)).isSome = true
  | [], b => by
    rw [List.nil_append]
    have hp : hasPfx "\n---\n".data ("\n---\n".data ++ b) = true :=
      hasPfx_append "\n---\n".data b
    cases hd : ("\n---\n".data ++ b : Str) with
    | nil => simp at hd
    | cons c cs =>
      rw [findDelim, ← hd, if_pos hp]
      rfl
  | c :: a, b => by
    rw [List.cons_append, List.cons_append, findDelim]
    by_cases hp : hasPfx "\n---\n".data (c :: (a ++ "\n---\n".data ++ b)) = true
    · rw [if_pos hp]; rfl
    · rw [if_neg hp]
      have := findDelim_complete a b
      cases hf : findDelim (a ++ "\n---\n".data ++ b) with
      | none => rw [hf] at this; simp at this
      | some p => obtain ⟨a2, b2⟩ := p; rfl

theorem splitFrontMatter_sound (s a b : Str)
    (h : splitFrontMatter s = some (a, b)) :
    s = "---\n".data ++ a ++ "\n---\n".data ++ b := by
  rw [splitFrontMatter] at h
  by_cases hp : hasPfx "---\n".data s = true
  · rw [if_pos hp] at h
    have hs := hasPfx_eq "---\n".data s hp
    have hd := findDelim_sound (s.drop 4) a b h
    calc s = "---\n".data ++ s.drop 4 := by simpa using hs
    _ = "---\n".data ++ (a ++ "\n---\n".data ++ b) := by rw [← hd]
    _ = "---\n".data ++ a ++ "\n---\n".data ++ b := by simp [List.append_assoc]
  · rw [if_neg hp] at h; cases h

theorem splitFrontMatter_isSome_iff (s : Str) :
    (splitFrontMatter s).isSome = true ↔
    ∃ a b : Str, s = "---\n".data ++ a ++ "\n---\n".data ++ b := by
  constructor
  · intro h
    cases hs : splitFrontMatter s with
    | none => rw [hs] at h; simp at h
    | some p =>
      obtain ⟨a, b⟩ := p
      exact ⟨a, b, splitFrontMatter_sound s a b hs⟩
  · rintro ⟨a, b, rfl⟩
    rw [splitFrontMatter]
    have hp : hasPfx "---\n".data ("---\n".data ++ a ++ "\n---\n".data ++ b) = true := by
      have := hasPfx_append "---\n".data (a ++ "\n---\n".data ++ b)
      simpa [List.append_assoc] using this
    rw [if_pos hp]
    have hdrop : ("---\n".data ++ a ++ "\n---\n".data ++ b : Str).drop 4 =
        a ++ "\n---\n".data ++ b := by
      have : ("---\n".data ++ (a ++ "\n---\n".data ++ b) : Str).drop
          ("---\n".data : Str).length = a ++ "\n---\n".data ++ b :=
        List.drop_left _ _
      rw [← List.append_assoc] at this
      exact this
    rw [hdrop]
    exact findDelim_complete a b

/-! ## Lemmas about the merge step -/

theorem containsKey_eq_isSome : ∀ (m : List (YValue × YValue)) (k : Str),
    containsKey m k = (getVal m k).isSome
  | [], _ => rfl
  | p :: t, k => by
    cases hp : yEqStr p.1 k with
    | true => simp [containsKey, getVal, List.find?_cons, hp]
    | false =>
      simp only [containsKey, List.any_cons, hp, Bool.false_or, getVal,
        List.find?_cons]
      exact containsKey_eq_isSome t k

theorem containsKey_merge_m1 (m : List (YValue × YValue)) :
    containsKey (merge_m1 m) tagsKey = true := by
  unfold merge_m1
  cases hc : containsKey m tagsKey with
  | true => rw [if_pos rfl]; exact hc
  | false =>
    rw [if_neg (by simp)]
    exact containsKey_append_one tagsKey (.seq []) m

theorem getVal_merge_m1_ne (m : List (YValue × YValue)) (k : Str)
    (hk : k ≠ tagsKey) : getVal (merge_m1 m) k = getVal m k := by
  unfold merge_m1
  cases hc : containsKey m tagsKey with
  | true => rw [if_pos rfl]
  | false =>
    rw [if_neg (by simp)]
    exact getVal_append_ne tagsKey k (.seq []) hk m

theorem filter_merge_m1 (m : List (YValue × YValue)) :
    (merge_m1 m).filter (fun p => !yEqStr p.1 tagsKey) =
    m.filter (fun p => !yEqStr p.1 tagsKey) := by
  unfold merge_m1
  cases hc : containsKey m tagsKey with
  | true => rw [if_pos rfl]
  | false =>
    rw [if_neg (by simp)]
    exact filter_append_one tagsKey (.seq []) m

/-- Evaluation of `merge_into` on a mapping: it always succeeds, with this exact result. -/
theorem merge_into_map (m : List (YValue × YValue)) (body : Str) (nt : List Str) :
    merge_into (.map m) body nt = .ok (.map (setVal (merge_m1 m) tagsKey
      (union_tags (promote_tags ((getVal (merge_m1 m) tagsKey).getD .null)) nt)),
      body) := rfl

/-- The post-insertion `tags` value, by the shape of the original field. -/
theorem getVal_merge_m1_tags (m : List (YValue × YValue)) :
    (containsKey m tagsKey = false ∧
      getVal (merge_m1 m) tagsKey = some (.seq [])) ∨
    (∃ v, getVal m tagsKey = some v ∧ getVal (merge_m1 m) tagsKey = some v) := by
  cases hc : containsKey m tagsKey with
  | false =>
    refine Or.inl ⟨rfl, ?_⟩
    unfold merge_m1
    rw [hc, if_neg (by simp)]
    exact getVal_append_one tagsKey (.seq []) m hc
  | true =>
    have := containsKey_eq_isSome m tagsKey
    rw [hc] at this
    cases hv : getVal m tagsKey with
    | none => rw [hv] at this; simp at this
    | some v =>
      refine Or.inr ⟨v, rfl, ?_⟩
      unfold merge_m1
      rw [hc, if_pos rfl]
      exact hv

/-! ## Unfolding lemmas for `resolve_tag` -/

theorem resolve_tag_exact (input : Str) (cfg : TagConfig) (choice : Nat)
    (confirmNew : Bool) (e : TagEntry) (h : exactMatch input cfg.tags = some e) :
    resolve_tag input cfg choice confirmNew = ((e.name, false), cfg) := by
  unfold resolve_tag
  rw [h]

theorem getD_of_get? {α : Type} (l : List α) (i : Nat) (d e : α)
    (h : l.get? i = some e) : l.getD i d = e := by
  rw [List.getD_eq_getElem?_getD, ← List.get?_eq_getElem?, h]
  rfl

/-! ## Claim theorems: the resolver -/

/-- C3: an input equal to a canonical name or an alias of some entry
resolves, for every possible interaction, to the canonical name of an
entry matching it, with `changed = false` and the vocabulary untouched —
no fuzzy or registration stage can influence the result. -/
theorem exact_match_idempotent (input : Str) (cfg : TagConfig) (e : TagEntry)
    (he : e ∈ cfg.tags) (hm : e.name = input ∨ input ∈ e.aliases) :
    ∃ e2, e2 ∈ cfg.tags ∧ (e2.name = input ∨ input ∈ e2.aliases) ∧
      ∀ choice confirmNew,
        resolve_tag input cfg choice confirmNew = ((e2.name, false), cfg) := by
  obtain ⟨e2, h2⟩ := exactMatch_isSome_of_mem input he hm
  have hprops := exactMatch_eq_some input cfg.tags e2 h2
  exact ⟨e2, hprops.1, hprops.2,
    fun choice confirmNew => resolve_tag_exact input cfg choice confirmNew e2 h2⟩

/-- Witness for C3: resolving `"proj"` against a vocabulary where it is an
alias of `"project"` returns the canonical name without changing
anything. -/
theorem exact_match_idempotent_witness :
    ∃ e2, e2 ∈ (⟨[⟨"project".data, ["proj".data]⟩]⟩ : TagConfig).tags ∧
      (e2.name = "proj".data ∨ "proj".data ∈ e2.aliases) ∧
      ∀ choice confirmNew,
        resolve_tag "proj".data ⟨[⟨"project".data, ["proj".data]⟩]⟩ choice confirmNew =
          ((e2.name, false), ⟨[⟨"project".data, ["proj".data]⟩]⟩) :=
  exact_match_idempotent "proj".data ⟨[⟨"project".data, ["proj".data]⟩]⟩
    ⟨"project".data, ["proj".data]⟩ (by decide) (by decide)

/-- C4: the returned boolean is true exactly when the call appended a new
alias or a new tag entry; in all other outcomes the vocabulary is returned
unchanged, and in particular a declined new-tag registration yields
`(input, false)` with the vocabulary identical. -/
theorem vocabulary_changed_iff (input : Str) (cfg : TagConfig) (choice : Nat)
    (confirmNew : Bool) :
    (((resolve_tag input cfg choice confirmNew).1.2 = false ∧
        (resolve_tag input cfg choice confirmNew).2 = cfg) ∨
      ((resolve_tag input cfg choice confirmNew).1.2 = true ∧
        ((∃ i e, cfg.tags.get? i = some e ∧
            (resolve_tag input cfg choice confirmNew).2.tags =
              cfg.tags.set i ⟨e.name, e.aliases ++ [input]⟩) ∨
          (resolve_tag input cfg choice confirmNew).2.tags =
            cfg.tags ++ [⟨input, []⟩]))) ∧
    (exactMatch input cfg.tags = none → confirmNew = false →
      ((suggestionsFor cfg input).length < choice ∨ suggestionsFor cfg input = []) →
      resolve_tag input cfg choice confirmNew = ((input, false), cfg)) := by
  cases hE : exactMatch input cfg.tags with
  | some e =>
    rw [resolve_tag_exact input cfg choice confirmNew e hE]
    exact ⟨Or.inl ⟨rfl, rfl⟩, fun hn => absurd hn (by simp)⟩
  | none =>
    cases hs : suggestionsFor cfg input with
    | nil =>
      have hr : resolve_tag input cfg choice confirmNew =
          if confirmNew then ((input, true), ⟨cfg.tags ++ [⟨input, []⟩]⟩)
          else ((input, false), cfg) := by
        unfold resolve_tag
        rw [hE]
        simp only [hs, List.isEmpty_nil, if_true]
      cases confirmNew with
      | true =>
        rw [hr, if_pos rfl]
        exact ⟨Or.inr ⟨rfl, Or.inr rfl⟩, fun _ hcf _ => by cases hcf⟩
      | false =>
        rw [hr, if_neg (by simp)]
        exact ⟨Or.inl ⟨rfl, rfl⟩, fun _ _ _ => rfl⟩
    | cons p t =>
      by_cases h1 : choice < (p :: t).length
      · have hr : resolve_tag input cfg choice confirmNew =
            (((cfg.tags.getD ((p :: t).getD choice (0, 0)).1 ⟨[], []⟩).name, false),
              cfg) := by
          unfold resolve_tag
          rw [hE]
          simp only [hs, List.isEmpty_cons, if_false, Bool.false_eq_true, if_pos h1]
        rw [hr]
        refine ⟨Or.inl ⟨rfl, rfl⟩, fun _ _ hd => ?_⟩
        rcases hd with hd | hd
        · exact absurd (lt_trans hd h1) (lt_irrefl _)
        · cases hd
      · by_cases h2 : choice = (p :: t).length
        · obtain ⟨e0, hget, -, -⟩ :=
            (mem_suggestionsFor cfg input p.1 p.2).mp (by rw [hs]; exact List.mem_cons_self p t)
          have hr : resolve_tag input cfg choice confirmNew =
              (((cfg.tags.getD p.1 ⟨[], []⟩).name, true),
                ⟨cfg.tags.set p.1 ⟨(cfg.tags.getD p.1 ⟨[], []⟩).name,
                  (cfg.tags.getD p.1 ⟨[], []⟩).aliases ++ [input]⟩⟩) := by
            unfold resolve_tag
            rw [hE]
            simp only [hs, List.isEmpty_cons, if_false, Bool.false_eq_true,
              if_neg h1, if_pos h2, List.headD_cons]
          rw [hr]
          have hgd : cfg.tags.getD p.1 ⟨[], []⟩ = e0 := getD_of_get? cfg.tags p.1 _ e0 hget
          refine ⟨Or.inr ⟨rfl, Or.inl ⟨p.1, e0, hget, ?_⟩⟩, fun _ _ hd => ?_⟩
          · rw [hgd]
          · rcases hd with hd | hd
            · rw [h2] at hd; exact absurd hd (lt_irrefl _)
            · cases hd
        · have hr : resolve_tag input cfg choice confirmNew =
              if confirmNew then ((input, true), ⟨cfg.tags ++ [⟨input, []⟩]⟩)
              else ((input, false), cfg) := by
            unfold resolve_tag
            rw [hE]
            simp only [hs, List.isEmpty_cons, if_false, Bool.false_eq_true,
              if_neg h1, if_neg h2]
          cases confirmNew with
          | true =>
            rw [hr, if_pos rfl]
            exact ⟨Or.inr ⟨rfl, Or.inr rfl⟩, fun _ hcf _ => by cases hcf⟩
          | false =>
            rw [hr, if_neg (by simp)]
            exact ⟨Or.inl ⟨rfl, rfl⟩, fun _ _ _ => rfl⟩

/-- Witness for C4: with an empty vocabulary and a declined confirmation,
the input is returned with `false` and the vocabulary is unchanged. -/
theorem vocabulary_changed_iff_witness :
    resolve_tag "x".data ⟨[]⟩ 0 false = (("x".data, false), ⟨[]⟩) :=
  (vocabulary_changed_iff "x".data ⟨[]⟩ 0 false).2 rfl rfl (Or.inr rfl)

/-- C5: choosing the register-as-alias option (index `suggestions.length`
in the menu) appends the raw input to the alias list of the best match —
the entry at the first candidate's vocabulary index — and returns its
canonical name with `true`; resolving the same input against the updated
vocabulary afterwards hits the exact-match stage, returning the same
canonical name with `false` and no further change, whatever the
interaction arguments. -/
theorem alias_registration (input : Str) (cfg : TagConfig) (confirmNew : Bool)
    (p : Nat × Nat) (t : List (Nat × Nat))
    (hE : exactMatch input cfg.tags = none)
    (hs : suggestionsFor cfg input = p :: t) :
    ∃ e, cfg.tags.get? p.1 = some e ∧
      resolve_tag input cfg (p :: t).length confirmNew =
        ((e.name, true), ⟨cfg.tags.set p.1 ⟨e.name, e.aliases ++ [input]⟩⟩) ∧
      ∀ c2 b2,
        resolve_tag input ⟨cfg.tags.set p.1 ⟨e.name, e.aliases ++ [input]⟩⟩ c2 b2 =
          ((e.name, false), ⟨cfg.tags.set p.1 ⟨e.name, e.aliases ++ [input]⟩⟩) := by
  obtain ⟨e, hget, -, -⟩ :=
    (mem_suggestionsFor cfg input p.1 p.2).mp (by rw [hs]; exact List.mem_cons_self p t)
  have hgd : cfg.tags.getD p.1 ⟨[], []⟩ = e := getD_of_get? cfg.tags p.1 _ e hget
  have hlt : p.1 < cfg.tags.length := by
    by_contra hge
    rw [List.get?_eq_none.mpr (Nat.le_of_not_lt hge)] at hget
    cases hget
  have hr : resolve_tag input cfg (p :: t).length confirmNew =
      ((e.name, true), ⟨cfg.tags.set p.1 ⟨e.name, e.aliases ++ [input]⟩⟩) := by
    unfold resolve_tag
    rw [hE]
    simp only [hs, List.isEmpty_cons, if_false, Bool.false_eq_true,
      if_neg (lt_irrefl (p :: t).length), if_pos rfl, List.headD_cons, hgd]
    rw [if_pos trivial]
  refine ⟨e, hget, hr, fun c2 b2 => ?_⟩
  have hE2 : exactMatch input (cfg.tags.set p.1 ⟨e.name, e.aliases ++ [input]⟩) =
      some ⟨e.name, e.aliases ++ [input]⟩ :=
    exactMatch_set input cfg.tags p.1 ⟨e.name, e.aliases ++ [input]⟩ hE hlt
      (Or.inr (List.mem_append_right e.aliases (List.mem_singleton_self input)))
  exact resolve_tag_exact input ⟨cfg.tags.set p.1 ⟨e.name, e.aliases ++ [input]⟩⟩
    c2 b2 ⟨e.name, e.aliases ++ [input]⟩ hE2

/-- Witness for C5: registering `"proj"` as an alias of `"project"`. -/
theorem alias_registration_witness :
    ∃ e, (⟨[⟨"project".data, []⟩]⟩ : TagConfig).tags.get? 0 = some e ∧
      resolve_tag "proj".data ⟨[⟨"project".data, []⟩]⟩ 1 false =
        ((e.name, true),
          ⟨[⟨"project".data, []⟩].set 0 ⟨e.name, e.aliases ++ ["proj".data]⟩⟩) ∧
      ∀ c2 b2,
        resolve_tag "proj".data
            ⟨[⟨"project".data, []⟩].set 0 ⟨e.name, e.aliases ++ ["proj".data]⟩⟩ c2 b2 =
          ((e.name, false),
            ⟨[⟨"project".data, []⟩].set 0 ⟨e.name, e.aliases ++ ["proj".data]⟩⟩) :=
  alias_registration "proj".data ⟨[⟨"project".data, []⟩]⟩ false (0, 3) []
    (by decide) (by decide)

/-- C2: the fuzzy candidate set consists exactly of the vocabulary indices
whose canonical name lies within edit distance 3 of the input (distance 3
included, distance 4 excluded, aliases ignored), in vocabulary order
(indices strictly increasing, never re-sorted by distance), and the first
candidate — the one used as best match for alias registration — is the one
with the lowest vocabulary index. -/
theorem fuzzy_candidates_spec (cfg : TagConfig) (input : Str) :
    (∀ i d, (i, d) ∈ suggestionsFor cfg input ↔
      ∃ e, cfg.tags.get? i = some e ∧ levenshteinDist e.name input = d ∧ d ≤ 3) ∧
    suggestionsFor ⟨cfg.tags.map (fun e => ⟨e.name, []⟩)⟩ input =
      suggestionsFor cfg input ∧
    (suggestionsFor cfg input).Pairwise (fun p q => p.1 < q.1) ∧
    ∀ q ∈ suggestionsFor cfg input,
      ((suggestionsFor cfg input).headD (0, 0)).1 ≤ q.1 :=
  ⟨mem_suggestionsFor cfg input, suggestionsFor_ignores_aliases cfg input,
    pairwise_fst_lt_suggestionsFor cfg input, headD_min_suggestionsFor cfg input⟩

/-- Witness for C2: with vocabulary `["abcdef", "abc", "abcdefg"]` and input
`"abc"`, the candidates are indices 0 (distance 3) and 1 (distance 0) —
index 2 at distance 4 is excluded — and the best match is index 0, the
lowest index, not the smallest distance. -/
theorem fuzzy_candidates_spec_witness :
    suggestionsFor ⟨[⟨"abcdef".data, []⟩, ⟨"abc".data, []⟩, ⟨"abcdefg".data, []⟩]⟩
        "abc".data = [(0, 3), (1, 0)] ∧
    ((suggestionsFor ⟨[⟨"abcdef".data, []⟩, ⟨"abc".data, []⟩, ⟨"abcdefg".data, []⟩]⟩
        "abc".data).headD (0, 0)).1 ≤ 0 :=
  ⟨by decide,
    (fuzzy_candidates_spec
        ⟨[⟨"abcdef".data, []⟩, ⟨"abc".data, []⟩, ⟨"abcdefg".data, []⟩]⟩
        "abc".data).2.2.2 (0, 3) (by decide)⟩

/-! ## Claim theorems: the merger -/

theorem setVal_getVal_id (k : Str) (v : YValue) : ∀ m : List (YValue × YValue),
    getVal m k = some v → setVal m k v = m
  | [], h => by simp [getVal, List.find?] at h
  | p :: t, h => by
    cases hp : yEqStr p.1 k with
    | true =>
      simp only [getVal, List.find?_cons, hp] at h
      injection h with h
      rw [setVal, if_pos hp, ← h]
    | false =>
      simp only [getVal, List.find?_cons, hp] at h
      rw [setVal, if_neg (by simp [hp])]
      rw [setVal_getVal_id k v t h]

/-- Merging into an empty mapping creates the `tags` entry alone. -/
theorem merge_into_empty (body : Str) (nt : List Str) :
    merge_into (.map []) body nt =
    .ok (.map [(.str tagsKey, .seq ((dedupConsec (sortStrs nt)).map .str))], body) := rfl

/-- C6: when the `tags` field is absent, a scalar string, or a list, the
merge succeeds and the merged `tags` value is the list of the union of the
existing string entries with the new tags, deduplicated and strictly
sorted in ascending codepoint order. -/
theorem merged_tags_spec (m : List (YValue × YValue)) (body : Str) (nt : List Str)
    (h : tagsShapeOk (getVal m tagsKey)) :
    ∃ (m2 : List (YValue × YValue)) (ms : List Str),
      merge_into (.map m) body nt = .ok (.map m2, body) ∧
      getVal m2 tagsKey = some (.seq (ms.map .str)) ∧
      ms.Pairwise (fun u v => strLt u v = true) ∧
      ∀ x, (x ∈ ms ↔ x ∈ existingStrings (getVal m tagsKey) ∨ x ∈ nt) := by
  rw [merge_into_map]
  rcases getVal_merge_m1_tags m with ⟨hc, hsome⟩ | ⟨v, hv, hsome⟩
  · have hnone : getVal m tagsKey = none := by
      have := containsKey_eq_isSome m tagsKey
      rw [hc] at this
      cases hgv : getVal m tagsKey with
      | none => rfl
      | some v => rw [hgv] at this; simp at this
    rw [hsome]
    refine ⟨_, dedupConsec (sortStrs nt), rfl, ?_, (sortDedup_spec nt).1, ?_⟩
    · exact getVal_setVal_self tagsKey _ (merge_m1 m) (containsKey_merge_m1 m)
    · intro x
      rw [(sortDedup_spec nt).2 x, hnone]
      simp [existingStrings]
  · rw [hv] at h
    rw [hsome]
    cases v with
    | str s =>
      refine ⟨_, dedupConsec (sortStrs ([s] ++ nt)), rfl, ?_, (sortDedup_spec _).1, ?_⟩
      · exact getVal_setVal_self tagsKey _ (merge_m1 m) (containsKey_merge_m1 m)
      · intro x
        rw [(sortDedup_spec ([s] ++ nt)).2 x, hv]
        simp [existingStrings, List.mem_append]
    | seq l =>
      refine ⟨_, dedupConsec (sortStrs (l.filterMap yAsStr ++ nt)), rfl, ?_,
        (sortDedup_spec _).1, ?_⟩
      · exact getVal_setVal_self tagsKey _ (merge_m1 m) (containsKey_merge_m1 m)
      · intro x
        rw [(sortDedup_spec (l.filterMap yAsStr ++ nt)).2 x, hv]
        simp [existingStrings, List.mem_append]
    | null => exact absurd h (by simp [tagsShapeOk])
    | bool b => exact absurd h (by simp [tagsShapeOk])
    | num n => exact absurd h (by simp [tagsShapeOk])
    | map mm => exact absurd h (by simp [tagsShapeOk])

/-- Witness for C6: the scalar promotion example — `tags: "draft"` merged
with `"urgent"`. -/
theorem merged_tags_spec_witness :
    ∃ (m2 : List (YValue × YValue)) (ms : List Str),
      merge_into (.map [(.str "tags".data, .str "draft".data)]) "B".data
          ["urgent".data] = .ok (.map m2, "B".data) ∧
      getVal m2 tagsKey = some (.seq (ms.map .str)) ∧
      ms.Pairwise (fun u v => strLt u v = true) ∧
      ∀ x, (x ∈ ms ↔
        x ∈ existingStrings (getVal [(.str "tags".data, .str "draft".data)] tagsKey) ∨
        x ∈ ["urgent".data]) :=
  merged_tags_spec [(.str "tags".data, .str "draft".data)] "B".data ["urgent".data]
    trivial

/-- Counterexample for C1: a document whose `tags` field is the number `5`
(neither scalar string nor list) does NOT make the merge fail — the merge
succeeds and passes the field through unchanged. -/
theorem tags_bad_shape_counterexample :
    update_markdown (fun _ => some (.map [(.str "tags".data, .num 5)]))
        "---\ntags: 5\n---\nbody".data ["urgent".data] =
      .ok (.map [(.str "tags".data, .num 5)], "body".data) := rfl

/-- C1 (amended): when the `tags` field is present but neither a scalar
string nor a list, `update_markdown` does not fail; it succeeds and passes
the entire mapping — `tags` field included — through unchanged. -/
theorem tags_bad_shape_passthrough (m : List (YValue × YValue)) (body : Str)
    (nt : List Str) (v : YValue) (hv : getVal m tagsKey = some v)
    (hstr : ∀ s, v ≠ .str s) (hseq : ∀ l, v ≠ .seq l) :
    merge_into (.map m) body nt = .ok (.map m, body) := by
  have hc : containsKey m tagsKey = true := by
    rw [containsKey_eq_isSome, hv]
    rfl
  have hm1 : merge_m1 m = m := by
    unfold merge_m1
    rw [hc, if_pos rfl]
  rw [merge_into_map, hm1, hv]
  have hpromote : promote_tags ((some v).getD .null) = v := by
    cases v with
    | str s => exact absurd rfl (hstr s)
    | null => rfl
    | bool b => rfl
    | num n => rfl
    | seq l => rfl
    | map mm => rfl
  rw [hpromote]
  have hunion : union_tags v nt = v := by
    cases v with
    | seq l => exact absurd rfl (hseq l)
    | null => rfl
    | bool b => rfl
    | num n => rfl
    | str s => rfl
    | map mm => rfl
  rw [hunion, setVal_getVal_id tagsKey v m hv]

/-- Witness for the amended C1: the `tags: 5` mapping is returned intact. -/
theorem tags_bad_shape_passthrough_witness :
    merge_into (.map [(.str "tags".data, .num 5)]) "body".data ["urgent".data] =
      .ok (.map [(.str "tags".data, .num 5)], "body".data) :=
  tags_bad_shape_passthrough [(.str "tags".data, .num 5)] "body".data
    ["urgent".data] (.num 5) rfl (fun s h => by cases h) (fun l h => by cases h)

/-- C7: the asymmetry of the merge step — a detected block whose content
fails to parse is replaced by an empty mapping and the merge proceeds
(producing a fresh `tags` list), while a block that parses to a
non-mapping value makes the merge fail with the structural error
"Invalid Front Matter". -/
theorem parse_leniency_vs_structural (parse : Str → Option YValue)
    (content : Str) (nt : List Str) (y b : Str)
    (hsplit : splitFrontMatter content = some (y, b)) :
    (parse y = none → ∃ l, update_markdown parse content nt =
      .ok (.map [(.str tagsKey, .seq l)], b)) ∧
    (∀ v, parse y = some v → (∀ m2, v ≠ .map m2) →
      update_markdown parse content nt = .error "Invalid Front Matter") := by
  have hu : update_markdown parse content nt =
      merge_into ((parse y).getD (.map [])) b nt := by
    unfold update_markdown
    rw [hsplit]
  constructor
  · intro hparse
    rw [hu, hparse]
    exact ⟨_, merge_into_empty b nt⟩
  · intro v hparse hnm
    rw [hu, hparse]
    cases v with
    | map mm => exact absurd rfl (hnm mm)
    | null => rfl
    | bool b2 => rfl
    | num n => rfl
    | str s => rfl
    | seq l => rfl

/-- Witness for C7: on `---\nX\n---\nbody`, a failing parser still yields a
successful merge, while a parser returning a (non-mapping) list makes it
fail with "Invalid Front Matter". -/
theorem parse_leniency_vs_structural_witness :
    (∃ l, update_markdown (fun _ => none) "---\nX\n---\nbody".data ["a".data] =
      .ok (.map [(.str tagsKey, .seq l)], "body".data)) ∧
    update_markdown (fun _ => some (.seq [])) "---\nX\n---\nbody".data ["a".data] =
      .error "Invalid Front Matter" :=
  ⟨(parse_leniency_vs_structural (fun _ => none) "---\nX\n---\nbody".data
      ["a".data] "X".data "body".data rfl).1 rfl,
    (parse_leniency_vs_structural (fun _ => some (.seq [])) "---\nX\n---\nbody".data
      ["a".data] "X".data "body".data rfl).2 (.seq []) rfl (fun m2 h => by cases h)⟩

/-- C8: a successful merge only touches the `tags` field — the body is
returned byte-identical, every header key other than `tags` maps to its
original value (indeed all non-`tags` entries are preserved verbatim, in
order), and the re-assembled document is the new block followed by the
unchanged body. -/
theorem merge_frame (m : List (YValue × YValue)) (body : Str) (nt : List Str)
    (v2 : YValue) (body2 : Str)
    (h : merge_into (.map m) body nt = .ok (v2, body2)) :
    body2 = body ∧
    ∃ m2, v2 = .map m2 ∧
      (∀ k, k ≠ tagsKey → getVal m2 k = getVal m k) ∧
      m2.filter (fun p => !yEqStr p.1 tagsKey) =
        m.filter (fun p => !yEqStr p.1 tagsKey) ∧
      ∀ ser, render ser v2 body2 =
        "---\n".data ++ ser v2 ++ "---\n".data ++ body := by
  rw [merge_into_map] at h
  injection h with h
  injection h with h1 h2
  subst h2
  refine ⟨rfl, setVal (merge_m1 m) tagsKey _, h1.symm, ?_, ?_, fun ser => rfl⟩
  · intro k hk
    rw [setVal_keys_values (merge_m1 m) tagsKey _ k hk]
    exact getVal_merge_m1_ne m k hk
  · rw [filter_setVal tagsKey _ (merge_m1 m)]
    exact filter_merge_m1 m

/-- Witness for C8: merging `["a"]` into a header with a `title` field
keeps the body and the `title` entry unchanged. -/
theorem merge_frame_witness :
    "body".data = "body".data ∧
    ∃ m2, YValue.map [(.str "title".data, .str "T".data),
        (.str "tags".data, .seq [.str "a".data])] = .map m2 ∧
      (∀ k, k ≠ tagsKey → getVal m2 k =
        getVal [(.str "title".data, .str "T".data), (.str "tags".data, .seq [])] k) ∧
      m2.filter (fun p => !yEqStr p.1 tagsKey) =
        List.filter (fun p => !yEqStr p.1 tagsKey)
          [(.str "title".data, .str "T".data), (.str "tags".data, .seq [])] ∧
      ∀ ser, render ser (YValue.map [(.str "title".data, .str "T".data),
          (.str "tags".data, .seq [.str "a".data])]) "body".data =
        "---\n".data ++ ser (YValue.map [(.str "title".data, .str "T".data),
          (.str "tags".data, .seq [.str "a".data])]) ++ "---\n".data ++ "body".data :=
  merge_frame [(.str "title".data, .str "T".data), (.str "tags".data, .seq [])]
    "body".data ["a".data] _ _ rfl

/-- C10: a leading metadata block is recognized exactly when the document
is `"---\n" ++ block ++ "\n---\n" ++ body`; otherwise — e.g. for the empty
block `"---\n---\n"` or a closing `"---"` at end of file without a
trailing newline — the whole original content becomes the body and a
freshly created block holding only `tags` is produced above it. -/
theorem front_matter_recognition (s : Str) (parse : Str → Option YValue)
    (nt : List Str) :
    ((splitFrontMatter s).isSome = true ↔
      ∃ a b : Str, s = "---\n".data ++ a ++ "\n---\n".data ++ b) ∧
    (splitFrontMatter s = none →
      ∃ l, update_markdown parse s nt = .ok (.map [(.str tagsKey, .seq l)], s)) := by
  refine ⟨splitFrontMatter_isSome_iff s, fun hnone => ?_⟩
  have hu : update_markdown parse s nt = merge_into (.map []) s nt := by
    unfold update_markdown
    rw [hnone]
  rw [hu]
  exact ⟨_, merge_into_empty s nt⟩

/-- Witness for C10: the empty block `"---\n---\nX"` and the unterminated
block `"---\nfoo\n---"` are both treated as block-less documents; a fresh
block is prepended above the whole original content. -/
theorem front_matter_recognition_witness :
    (∃ l, update_markdown (fun _ => none) "---\n---\nX".data ["t".data] =
      .ok (.map [(.str tagsKey, .seq l)], "---\n---\nX".data)) ∧
    (∃ l, update_markdown (fun _ => none) "---\nfoo\n---".data ["t".data] =
      .ok (.map [(.str tagsKey, .seq l)], "---\nfoo\n---".data)) :=
  ⟨(front_matter_recognition "---\n---\nX".data (fun _ => none) ["t".data]).2 rfl,
    (front_matter_recognition "---\nfoo\n---".data (fun _ => none) ["t".data]).2 rfl⟩

/-- C9: loading the vocabulary store never fails the caller — a missing
record yields the empty vocabulary and unparsable content also yields the
empty vocabulary. -/
theorem load_config_lenient (parse : Str → Option TagConfig) (content : Str)
    (hbad : parse content = none) :
    load_config parse none = ⟨[]⟩ ∧ load_config parse (some content) = ⟨[]⟩ := by
  refine ⟨rfl, ?_⟩
  show (parse content).getD ⟨[]⟩ = ⟨[]⟩
  rw [hbad]
  rfl

/-- Witness for C9: a parser that rejects everything still produces the
empty vocabulary from both a missing and a present record. -/
theorem load_config_lenient_witness :
    load_config (fun _ => none) none = ⟨[]⟩ ∧
    load_config (fun _ => none) (some "garbage".data) = ⟨[]⟩ :=
  load_config_lenient (fun _ => none) "garbage".data rfl
